import Mathlib

/-!
# Tile acquisition core of `map_viewer.c`

A shallow embedding of the tile fetch queue, the in-memory texture cache, the
Web Mercator helpers and the per-frame tile enumeration of
`src/map_viewer.c`, together with the properties proved about them.

Modelling conventions

* C `int` values are mathematical integers (`Int`) and no wrap-around is
  applied: `imod` cannot overflow for a positive modulus (`-m < r < 0` before
  `r + m`), the queue and the cache do no arithmetic, and the draw step stays
  inside 32 bits for zoom in 1..22 and every window and center below `2^29`
  (`draw_grid_in_int_range`).
* The singly linked lists `job_head`/`job_tail` and `TILE_CACHE[i]` are Lean
  lists in head-to-tail order.
* `double` pixel coordinates of the draw step are exact rationals; the
  transcendental Web Mercator formulas are read over the real numbers.
* `file_exists` and `IMG_LoadTexture` are oracles: their answer for the
  current call is an argument of `get_tile_texture`.
-/

namespace MapViewer

/-! ## Configuration -/

/-- The macro `TILE_SIZE`. -/
def TILE_SIZE : Int := 256

/-- The macro `MIN_ZOOM`. -/
def MIN_ZOOM : Int := 1

/-- The macro `MAX_ZOOM`. -/
def MAX_ZOOM : Int := 22

/-- The string constant `CACHE_ROOT`. -/
def CACHE_ROOT : String := "tilecache"

/-- The macro `PATH_SEP` (the non-Windows branch). -/
def PATH_SEP : String := "/"

/-- The `type` column of the table `PROVIDERS`. -/
def PROVIDERS : List String := ["osm", "google", "arcgis", "carto_light", "carto_dark"]

/-- The macro `SIZE_PROVIDER`, the number of rows of `PROVIDERS`. -/
abbrev SIZE_PROVIDER : Nat := 5

/-! ## Positive modulo -/

/-- The function `imod`: C's `a % m` truncates toward zero (`Int.tmod`); a
negative remainder is shifted up by `m`. -/
def imod (a m : Int) : Int :=
  let r := a.tmod m
  if r < 0 then r + m else r

/-! ## Fetch queue -/

/-- The struct `TileJob` without its `next` pointer. -/
structure TileJob where
  provider : Int
  z : Int
  x : Int
  y : Int
  path : String
  deriving DecidableEq, Repr

/-- The loop condition of `enqueue_job`: the queued job `t` has the requested
`z`, `x` and `y`.  The source does not compare `provider`. -/
def job_matches (z x y : Int) (t : TileJob) : Bool :=
  t.z == z && t.x == x && t.y == y

/-- The function `enqueue_job` on the list of queued jobs: return without
change when the scan finds a job with the same `z`, `x`, `y`; otherwise append
a new job at the tail.  The job keeps the first 512 bytes of `path`
(`strncpy` into `char path[512]`). -/
def enqueue_job (q : List TileJob) (provider z x y : Int) (path : String) : List TileJob :=
  if q.any (job_matches z x y) then q
  else q ++ [{ provider := provider, z := z, x := x, y := y, path := path.take 512 }]

/-- The function `dequeue_job` once it returns: the head job is removed and
returned; on an empty queue the result is `NULL` and the queue stays empty
(the call waits while `downloader_running` is set, and changes nothing). -/
def dequeue_job : List TileJob → Option TileJob × List TileJob
  | [] => (none, [])
  | job :: rest => (some job, rest)

/-- One call on the fetch queue. -/
inductive QueueOp where
  | enqueue (provider z x y : Int) (path : String)
  | dequeue
  deriving Repr

/-- The queue after one call. -/
def QueueOp.apply (q : List TileJob) : QueueOp → List TileJob
  | .enqueue provider z x y path => enqueue_job q provider z x y path
  | .dequeue => (dequeue_job q).2

/-- The queue after a sequence of calls, oldest first, starting from `q`. -/
def run_queue (q : List TileJob) (ops : List QueueOp) : List TileJob :=
  ops.foldl QueueOp.apply q

/-- The number of queued jobs with the TileKey `(provider, z, x, y)`. -/
def jobs_with_key (q : List TileJob) (provider z x y : Int) : Nat :=
  q.countP (fun t => t.provider == provider && job_matches z x y t)

/-! ## Texture cache -/

/-- A non-NULL `SDL_Texture *`; the NULL pointer is `none`. -/
abbrev Texture := Nat

/-- The struct `TileCache` without its `next` pointer. -/
structure TileCache where
  z : Int
  x : Int
  y : Int
  texture : Texture
  deriving DecidableEq, Repr

/-- The hit test of the scan in `get_tile_texture`. -/
def cache_matches (zoom x y : Int) (p : TileCache) : Bool :=
  p.z == zoom && p.x == x && p.y == y

/-- The global state touched by `get_tile_texture`: the array `TILE_CACHE`
(one list per provider) and the job queue. -/
structure TileState where
  TILE_CACHE : Fin SIZE_PROVIDER → List TileCache
  jobs : List TileJob

/-- The state after `init_tile_cache`, before any job was queued. -/
def init_tile_cache : TileState :=
  { TILE_CACHE := fun _ => [], jobs := [] }

/-- The field `PROVIDERS[provider].type`. -/
def provider_type (provider : Fin SIZE_PROVIDER) : String :=
  PROVIDERS.get ⟨provider.val, provider.isLt⟩

/-- The `snprintf` of `get_tile_texture` into `char tile_path[512]`:
`tilecache/<provider>/<zoom>/<x>/<y>.png`, at most 511 characters. -/
def tile_path (provider : Fin SIZE_PROVIDER) (zoom x y : Int) : String :=
  (CACHE_ROOT ++ PATH_SEP ++ provider_type provider ++ PATH_SEP ++ toString zoom ++ PATH_SEP ++
    toString x ++ PATH_SEP ++ toString y ++ ".png").take 511

/-- The function `get_tile_texture`.  `on_disk` is what `file_exists(tile_path)`
answers in this call and `loaded` what `IMG_LoadTexture` returns (`none` for
NULL).  A hit returns the stored texture.  A miss queues a job when the file is
absent, then tries to decode: on failure NULL is returned and nothing is
cached, on success a new entry is linked after the last entry of the
provider's list.  (`ensure_cache_dir` only creates directories and is not part
of the state.) -/
def get_tile_texture (st : TileState) (on_disk : Bool) (loaded : Option Texture)
    (provider : Fin SIZE_PROVIDER) (zoom x y : Int) : Option Texture × TileState :=
  match (st.TILE_CACHE provider).find? (cache_matches zoom x y) with
  | some p => (some p.texture, st)
  | none =>
    let jobs :=
      if on_disk then st.jobs
      else enqueue_job st.jobs (provider.val : Int) zoom x y (tile_path provider zoom x y)
    match loaded with
    | none => (none, { st with jobs := jobs })
    | some texture =>
      (some texture,
        { TILE_CACHE := Function.update st.TILE_CACHE provider
            (st.TILE_CACHE provider ++ [{ z := zoom, x := x, y := y, texture := texture }]),
          jobs := jobs })

/-- One step that touches the tile state: a call of `get_tile_texture` by the
rendering thread with the answers of its two oracles, or the worker thread
taking a job with `dequeue_job`. -/
inductive TileStep where
  | lookup (on_disk : Bool) (loaded : Option Texture) (provider : Fin SIZE_PROVIDER)
      (zoom x y : Int)
  | worker_dequeue

/-- The tile state after one step. -/
def TileStep.apply (st : TileState) : TileStep → TileState
  | .lookup on_disk loaded provider zoom x y =>
      (get_tile_texture st on_disk loaded provider zoom x y).2
  | .worker_dequeue => { st with jobs := (dequeue_job st.jobs).2 }

/-- The tile state after a sequence of steps, oldest first. -/
def run_tiles (st : TileState) (steps : List TileStep) : TileState :=
  steps.foldl TileStep.apply st

/-- The number of entries for `(zoom, x, y)` in one provider's list. -/
def entries_for (st : TileState) (provider : Fin SIZE_PROVIDER) (zoom x y : Int) : Nat :=
  (st.TILE_CACHE provider).countP (cache_matches zoom x y)

/-- Repeated lookups of one key: the returned handles, oldest first, and the
final state.  Each pair holds the two oracle answers of one call. -/
def lookup_many (st : TileState) (provider : Fin SIZE_PROVIDER) (zoom x y : Int) :
    List (Bool × Option Texture) → List (Option Texture) × TileState
  | [] => ([], st)
  | (on_disk, loaded) :: rest =>
      let r := get_tile_texture st on_disk loaded provider zoom x y
      let rs := lookup_many r.2 provider zoom x y rest
      (r.1 :: rs.1, rs.2)

/-! ## Per-frame tile enumeration (the draw step of `main`) -/

/-- The expression `1 << zoom` for `0 ≤ zoom ≤ 30`. -/
def shl_one (zoom : Int) : Int := 2 ^ zoom.toNat

/-- The local `world_w = (double)n * TILE_SIZE`. -/
def world_w (zoom : Int) : ℚ := (shl_one zoom : ℚ) * (TILE_SIZE : ℚ)

/-- The two `if` statements that wrap `center_px` before drawing: add
`world_w` once when negative, then subtract `world_w` once when not below
`world_w`. -/
def wrap_center_px (zoom : Int) (center_px : ℚ) : ℚ :=
  let c := if center_px < 0 then center_px + world_w zoom else center_px
  if c ≥ world_w zoom then c - world_w zoom else c

/-- The locals `left_px = center_px - win_w / 2.0` and
`top_px = center_py - win_h / 2.0`. -/
def edge_px (center : ℚ) (win : Int) : ℚ := center - (win : ℚ) / 2

/-- The locals `first_tx = (int)floor(left_px / TILE_SIZE)` and `first_ty`. -/
def first_tile (edge : ℚ) : Int := ⌊edge / (TILE_SIZE : ℚ)⌋

/-- The locals `tiles_x = win_w / TILE_SIZE + 3` and `tiles_y`; C's integer
division truncates. -/
def tiles_count (win : Int) : Int := win.tdiv TILE_SIZE + 3

/-- What the loop body computes for one grid cell: the tile indices, the
on-screen origin, and the `(zoom, wx, wy)` passed to `get_tile_texture`
(`none` when the `continue` of the pole clamp skips the cell). -/
structure GridCell where
  tx : Int
  ty : Int
  tile_origin_x : ℚ
  tile_origin_y : ℚ
  lookup : Option (Int × Int × Int)
  deriving DecidableEq, Repr

/-- The part of the loop body that picks the key: `wx = imod(tx, n)`, the cell
is skipped when `ty < 0 || ty >= n`, otherwise `wy = ty` and
`get_tile_texture(renderer, provider, zoom, wx, wy)` is called. -/
def cell_lookup (zoom tx ty : Int) : Option (Int × Int × Int) :=
  let n := shl_one zoom
  let wx := imod tx n
  if ty < 0 ∨ ty ≥ n then none else some (zoom, wx, ty)

/-- The body of the inner loop for `row`, `col`. -/
def draw_cell (zoom : Int) (left_px top_px : ℚ) (first_tx first_ty : Int) (row col : Nat) :
    GridCell :=
  let tx := first_tx + (col : Int)
  let ty := first_ty + (row : Int)
  { tx := tx
    ty := ty
    tile_origin_x := ((tx * TILE_SIZE : Int) : ℚ) - left_px
    tile_origin_y := ((ty * TILE_SIZE : Int) : ℚ) - top_px
    lookup := cell_lookup zoom tx ty }

/-- The two nested `for` loops over `row < tiles_y`, `col < tiles_x`, in
iteration order, for a `center_px` that has already been wrapped. -/
def draw_grid (win_w win_h : Int) (center_px center_py : ℚ) (zoom : Int) : List GridCell :=
  let left_px := edge_px center_px win_w
  let top_px := edge_px center_py win_h
  let first_tx := first_tile left_px
  let first_ty := first_tile top_px
  (List.range (tiles_count win_h).toNat).flatMap fun row =>
    (List.range (tiles_count win_w).toNat).map fun col =>
      draw_cell zoom left_px top_px first_tx first_ty row col

/-- The keys for which the draw loop calls `get_tile_texture`, in order. -/
def draw_lookups (win_w win_h : Int) (center_px center_py : ℚ) (zoom : Int) :
    List (Int × Int × Int) :=
  (draw_grid win_w win_h center_px center_py zoom).filterMap GridCell.lookup

/-! ## Web Mercator helpers, read over the real numbers -/

/-- The macro `M_PI`. -/
noncomputable def M_PI : ℝ := 3.14159265358979323846

/-- The function `lonlat_to_pixels`; the result is `(*px, *py)`. -/
noncomputable def lonlat_to_pixels (lon_deg lat_deg : ℝ) (z : Int) : ℝ × ℝ :=
  let lat := max (min lat_deg 85.05112878) (-85.05112878)
  let n : ℝ := (shl_one z : ℝ)
  let x := (lon_deg + 180.0) / 360.0
  let s := Real.sin (lat * M_PI / 180.0)
  let y := 0.5 - Real.log ((1 + s) / (1 - s)) / (4 * M_PI)
  (x * n * (TILE_SIZE : ℝ), y * n * (TILE_SIZE : ℝ))

/-- The function `pixels_to_lonlat`; the result is `(*lon_deg, *lat_deg)`. -/
noncomputable def pixels_to_lonlat (px py : ℝ) (z : Int) : ℝ × ℝ :=
  let n : ℝ := (shl_one z : ℝ)
  let x := px / (n * (TILE_SIZE : ℝ))
  let y := py / (n * (TILE_SIZE : ℝ))
  let a := M_PI * (1 - 2 * y)
  (x * 360.0 - 180.0, 180.0 / M_PI * Real.arctan (0.5 * (Real.exp a - Real.exp (-a))))

/-! ## Properties of `imod` -/

/-- The truncated remainder lies strictly between `-m` and `m` and differs
from `a` by a multiple of `m`. -/
theorem tmod_bounds (a m : Int) (hm : 0 < m) :
    -m < a.tmod m ∧ a.tmod m < m ∧ m ∣ a - a.tmod m := by
  have hdvd : m ∣ a - a.tmod m := ⟨a.tdiv m, by rw [Int.tmod_def]; ring⟩
  refine ⟨?_, Int.tmod_lt_of_pos a hm, hdvd⟩
  rcases le_or_lt 0 a with ha | ha
  · have := Int.tmod_nonneg m ha
    omega
  · have h1 : a.tmod m = -((-a).tmod m) := by
      rw [Int.tmod_def, Int.tmod_def, Int.neg_tdiv]; ring
    have h2 := Int.tmod_lt_of_pos (-a) hm
    omega

/-- For a positive modulus `imod` is the floor remainder. -/
theorem imod_eq_emod (a m : Int) (hm : 0 < m) : imod a m = a % m := by
  obtain ⟨h1, h2, h3⟩ := tmod_bounds a m hm
  have key : ∀ v : Int, 0 ≤ v → v < m → m ∣ a - v → v = a % m := by
    intro v hv0 hvm hd
    have : a % m = v % m :=
      (Int.emod_eq_emod_iff_emod_sub_eq_zero).2 (Int.emod_eq_zero_of_dvd hd)
    rw [this, Int.emod_eq_of_lt hv0 hvm]
  unfold imod
  simp only
  split_ifs with h
  · refine key _ (by omega) (by omega) ?_
    have : a - (a.tmod m + m) = (a - a.tmod m) - m := by ring
    rw [this]
    exact Int.dvd_sub h3 (dvd_refl m)
  · exact key _ (by omega) h2 h3

/-- C8: for every integer `a` and every modulus `m > 0`, `imod a m` lies in
`[0, m)`, is congruent to `a` modulo `m`, and equals the floor remainder of
`a` by `m`, although the C remainder it starts from truncates toward zero
(`-1 % 8` is `-1`); in particular `imod (-1) 8 = 7`. -/
theorem imod_is_mathematical_modulo (a m : Int) (hm : 0 < m) :
    (0 ≤ imod a m ∧ imod a m < m) ∧
    imod a m ≡ a [ZMOD m] ∧
    imod a m = Int.fmod a m ∧
    imod a m = a % m ∧
    (-1 : Int).tmod 8 = -1 ∧
    imod (-1) 8 = 7 := by
  have h := imod_eq_emod a m hm
  refine ⟨⟨?_, ?_⟩, ?_, ?_, h, by decide, by decide⟩
  · rw [h]; exact Int.emod_nonneg a (ne_of_gt hm)
  · rw [h]; exact Int.emod_lt_of_pos a hm
  · rw [h]; exact Int.mod_modEq a m
  · rw [h]; exact (Int.fmod_eq_emod a (le_of_lt hm)).symm

/-- C8 at `a = -1`, `m = 8`. -/
theorem imod_is_mathematical_modulo_witness :
    (0 : Int) < 8 ∧
    ((0 ≤ imod (-1) 8 ∧ imod (-1) 8 < 8) ∧
      imod (-1) 8 ≡ -1 [ZMOD 8] ∧
      imod (-1) 8 = Int.fmod (-1) 8 ∧
      imod (-1) 8 = (-1) % 8 ∧
      (-1 : Int).tmod 8 = -1 ∧
      imod (-1) 8 = 7) :=
  ⟨by decide, imod_is_mathematical_modulo (-1) 8 (by decide)⟩

/-! ## Properties of the fetch queue -/

/-- No two queued jobs share `z`, `x` and `y`. -/
theorem enqueue_job_pairwise (q : List TileJob) (provider z x y : Int) (path : String)
    (h : q.Pairwise fun a b => job_matches a.z a.x a.y b = false) :
    (enqueue_job q provider z x y path).Pairwise fun a b => job_matches a.z a.x a.y b = false := by
  unfold enqueue_job
  split_ifs with hany
  · exact h
  · rw [List.pairwise_append]
    refine ⟨h, List.pairwise_singleton _ _, ?_⟩
    intro a ha b hb
    rw [List.mem_singleton] at hb
    subst hb
    have hno : job_matches z x y a = false := by
      simp only [List.any_eq_true, not_exists, not_and, Bool.not_eq_true] at hany
      exact hany a ha
    simp only [job_matches, Bool.and_eq_false_imp, Bool.and_eq_true, beq_iff_eq,
      beq_eq_false_iff_ne, ne_eq] at hno ⊢
    rintro ⟨rfl, rfl⟩ rfl
    exact hno ⟨rfl, rfl⟩ rfl

/-- Removing the head keeps the jobs pairwise distinct. -/
theorem dequeue_job_pairwise (q : List TileJob)
    (h : q.Pairwise fun a b => job_matches a.z a.x a.y b = false) :
    (dequeue_job q).2.Pairwise fun a b => job_matches a.z a.x a.y b = false := by
  cases q with
  | nil => exact List.Pairwise.nil
  | cons j rest => exact (List.pairwise_cons.1 h).2

/-- Every queue reached from a pairwise distinct queue is pairwise distinct. -/
theorem run_queue_pairwise (ops : List QueueOp) (q : List TileJob)
    (h : q.Pairwise fun a b => job_matches a.z a.x a.y b = false) :
    (run_queue q ops).Pairwise fun a b => job_matches a.z a.x a.y b = false := by
  induction ops generalizing q with
  | nil => exact h
  | cons op ops ih =>
    cases op with
    | enqueue provider z x y path =>
      exact ih _ (enqueue_job_pairwise q provider z x y path h)
    | dequeue => exact ih _ (dequeue_job_pairwise q h)

/-- In a pairwise distinct queue at most one job has a given `z`, `x`, `y`,
whatever else is asked of it. -/
theorem countP_le_one_of_pairwise (q : List TileJob) (z x y : Int) (f : TileJob → Bool)
    (h : q.Pairwise fun a b => job_matches a.z a.x a.y b = false) :
    q.countP (fun t => f t && job_matches z x y t) ≤ 1 := by
  induction q with
  | nil => simp
  | cons j rest ih =>
    obtain ⟨hj, hrest⟩ := List.pairwise_cons.1 h
    by_cases hm : (f j && job_matches z x y j) = true
    · have hzero : rest.countP (fun t => f t && job_matches z x y t) = 0 := by
        rw [List.countP_eq_zero]
        intro b hb hb2
        have hjb := hj b hb
        simp only [job_matches, Bool.and_eq_true, beq_iff_eq, Bool.and_eq_false_imp,
          beq_eq_false_iff_ne, ne_eq] at hm hb2 hjb
        obtain ⟨-, ⟨h1, h2⟩, h3⟩ := hm
        obtain ⟨-, ⟨h4, h5⟩, h6⟩ := hb2
        exact hjb ⟨by rw [h4, h1], by rw [h5, h2]⟩ (by rw [h6, h3])
      rw [List.countP_cons, hzero, if_pos hm]
    · rw [List.countP_cons, if_neg hm]
      exact ih hrest

/-- When the scan finds a job with the same `z`, `x`, `y` the queue is
returned as it is. -/
theorem enqueue_job_of_any (q : List TileJob) (provider z x y : Int) (path : String)
    (h : q.any (job_matches z x y) = true) : enqueue_job q provider z x y path = q := by
  unfold enqueue_job
  rw [if_pos h]

/-- Enqueuing a key again right after it was enqueued changes nothing. -/
theorem enqueue_job_twice (q : List TileJob) (provider z x y : Int) (path path2 : String) :
    enqueue_job (enqueue_job q provider z x y path) provider z x y path2 =
      enqueue_job q provider z x y path := by
  have hany : (enqueue_job q provider z x y path).any (job_matches z x y) = true := by
    unfold enqueue_job
    split_ifs with h
    · exact h
    · simp [job_matches]
  exact enqueue_job_of_any _ provider z x y path2 hany

/-- The part of the deduplication that holds on the code: starting from the
empty queue, after every finite sequence of `enqueue_job` and `dequeue_job`
calls with arbitrary arguments the queue holds at most one job with any given
TileKey `(provider, z, x, y)`, and a second consecutive `enqueue_job` of one
key changes nothing; enqueuing one key twice on the empty queue leaves exactly
one job, the job for that key. -/
theorem fetch_queue_dedup (ops : List QueueOp) (provider z x y : Int) (path path2 : String) :
    jobs_with_key (run_queue [] ops) provider z x y ≤ 1 ∧
    run_queue [] (ops ++ [.enqueue provider z x y path, .enqueue provider z x y path2]) =
      run_queue [] (ops ++ [.enqueue provider z x y path]) ∧
    run_queue [] [.enqueue provider z x y path, .enqueue provider z x y path2] =
      [{ provider := provider, z := z, x := x, y := y, path := path.take 512 }] ∧
    jobs_with_key
      (run_queue [] [.enqueue provider z x y path, .enqueue provider z x y path2])
      provider z x y = 1 := by
  have hone : enqueue_job [] provider z x y path =
      [{ provider := provider, z := z, x := x, y := y, path := path.take 512 }] := by
    simp [enqueue_job]
  refine ⟨?_, ?_, ?_, ?_⟩
  · exact countP_le_one_of_pairwise _ z x y (fun t => t.provider == provider)
      (run_queue_pairwise ops [] List.Pairwise.nil)
  · simp only [run_queue, List.foldl_append, List.foldl_cons, List.foldl_nil, QueueOp.apply]
    exact enqueue_job_twice _ provider z x y path path2
  · simp only [run_queue, List.foldl_cons, List.foldl_nil, QueueOp.apply]
    rw [enqueue_job_twice, hone]
  · simp only [run_queue, List.foldl_cons, List.foldl_nil, QueueOp.apply]
    rw [enqueue_job_twice, hone]
    simp [jobs_with_key, job_matches]

/-- C1 at a failing input: starting from the empty queue, the osm job for
`(3, 4, 2)` is enqueued and then the key `(google, 3, 4, 2)` is enqueued twice
with no dequeue in between.  Both calls return early at the scan, so the queue
still holds only the osm job and zero jobs for the google key, not exactly
one. -/
theorem fetch_queue_twice_leaves_no_job :
    run_queue []
      [.enqueue 0 3 4 2 "tilecache/osm/3/4/2.png",
       .enqueue 1 3 4 2 "tilecache/google/3/4/2.png",
       .enqueue 1 3 4 2 "tilecache/google/3/4/2.png"] =
      [{ provider := 0, z := 3, x := 4, y := 2,
         path := ("tilecache/osm/3/4/2.png" : String).take 512 }] ∧
    jobs_with_key
      (run_queue []
        [.enqueue 0 3 4 2 "tilecache/osm/3/4/2.png",
         .enqueue 1 3 4 2 "tilecache/google/3/4/2.png",
         .enqueue 1 3 4 2 "tilecache/google/3/4/2.png"])
      1 3 4 2 = 0 := by
  have hrun : run_queue []
      [.enqueue 0 3 4 2 "tilecache/osm/3/4/2.png",
       .enqueue 1 3 4 2 "tilecache/google/3/4/2.png",
       .enqueue 1 3 4 2 "tilecache/google/3/4/2.png"] =
      [{ provider := 0, z := 3, x := 4, y := 2,
         path := ("tilecache/osm/3/4/2.png" : String).take 512 }] := by
    simp [run_queue, QueueOp.apply, enqueue_job, job_matches]
  rw [hrun]
  exact ⟨rfl, by simp [jobs_with_key, job_matches]⟩

/-- What `enqueue_job` does: the queue is unchanged exactly when some queued
job has the same `z`, `x` and `y`, whatever its provider; otherwise one job is
appended at the tail. -/
theorem enqueue_job_cases (q : List TileJob) (provider z x y : Int) (path : String) :
    ((∃ t ∈ q, t.z = z ∧ t.x = x ∧ t.y = y) → enqueue_job q provider z x y path = q) ∧
    ((¬ ∃ t ∈ q, t.z = z ∧ t.x = x ∧ t.y = y) →
      enqueue_job q provider z x y path =
        q ++ [{ provider := provider, z := z, x := x, y := y, path := path.take 512 }]) := by
  have hiff : q.any (job_matches z x y) = true ↔ ∃ t ∈ q, t.z = z ∧ t.x = x ∧ t.y = y := by
    simp [job_matches, and_assoc]
  constructor
  · intro h
    unfold enqueue_job
    rw [if_pos (hiff.2 h)]
  · intro h
    unfold enqueue_job
    rw [if_neg (fun hc => h (hiff.1 hc))]

/-- C2 at a failing input: with the osm job for `(3, 4, 2)` queued, no queued
job has the TileKey `(google, 3, 4, 2)`, yet `enqueue_job` for that key leaves
the queue unchanged instead of appending a job. -/
theorem enqueue_job_other_provider_dropped :
    jobs_with_key
      [{ provider := 0, z := 3, x := 4, y := 2, path := "tilecache/osm/3/4/2.png" }]
      1 3 4 2 = 0 ∧
    enqueue_job
      [{ provider := 0, z := 3, x := 4, y := 2, path := "tilecache/osm/3/4/2.png" }]
      1 3 4 2 "tilecache/google/3/4/2.png" =
      [{ provider := 0, z := 3, x := 4, y := 2, path := "tilecache/osm/3/4/2.png" }] := by
  constructor
  · decide
  · simp [enqueue_job, job_matches]

/-! ## Properties of the texture cache -/

/-- A hit returns the stored texture and leaves the whole state alone,
whatever the oracles would answer. -/
theorem get_tile_texture_hit (st : TileState) (on_disk : Bool) (loaded : Option Texture)
    (provider : Fin SIZE_PROVIDER) (zoom x y : Int) (e : TileCache)
    (h : (st.TILE_CACHE provider).find? (cache_matches zoom x y) = some e) :
    get_tile_texture st on_disk loaded provider zoom x y = (some e.texture, st) := by
  unfold get_tile_texture
  rw [h]

/-- Once a key is cached, any number of further lookups of it return the
stored texture and leave the state alone. -/
theorem lookup_many_hit (st : TileState) (provider : Fin SIZE_PROVIDER) (zoom x y : Int)
    (e : TileCache) (h : (st.TILE_CACHE provider).find? (cache_matches zoom x y) = some e)
    (calls : List (Bool × Option Texture)) :
    lookup_many st provider zoom x y calls = (List.replicate calls.length (some e.texture), st) := by
  induction calls with
  | nil => rfl
  | cons c rest ih =>
    obtain ⟨on_disk, loaded⟩ := c
    simp only [lookup_many, get_tile_texture_hit st on_disk loaded provider zoom x y e h, ih,
      List.length_cons, List.replicate_succ]

/-- After a lookup whose decode succeeds the key is cached, and the first
matching entry carries the returned handle. -/
theorem get_tile_texture_stores (st : TileState) (on_disk : Bool) (texture : Texture)
    (provider : Fin SIZE_PROVIDER) (zoom x y : Int) :
    ∃ t, (get_tile_texture st on_disk (some texture) provider zoom x y).1 = some t ∧
      ((get_tile_texture st on_disk (some texture) provider zoom x y).2.TILE_CACHE provider).find?
        (cache_matches zoom x y) = some { z := zoom, x := x, y := y, texture := t } := by
  cases hfind : (st.TILE_CACHE provider).find? (cache_matches zoom x y) with
  | some e =>
    refine ⟨e.texture, ?_, ?_⟩
    · rw [get_tile_texture_hit st on_disk _ provider zoom x y e hfind]
    · rw [get_tile_texture_hit st on_disk _ provider zoom x y e hfind]
      have hm := List.find?_some hfind
      simp only [cache_matches, Bool.and_eq_true, beq_iff_eq] at hm
      obtain ⟨⟨h1, h2⟩, h3⟩ := hm
      simp only [hfind, Option.some.injEq]
      cases e
      simp_all
  | none =>
    refine ⟨texture, ?_, ?_⟩
    · unfold get_tile_texture
      rw [hfind]
    · unfold get_tile_texture
      rw [hfind]
      simp only [Function.update_same, List.find?_append, hfind, Option.none_or]
      simp [cache_matches]

/-- A lookup keeps the entries of every partition pairwise distinct. -/
theorem get_tile_texture_pairwise (st : TileState) (on_disk : Bool) (loaded : Option Texture)
    (provider : Fin SIZE_PROVIDER) (zoom x y : Int)
    (h : ∀ p, (st.TILE_CACHE p).Pairwise fun a b => cache_matches a.z a.x a.y b = false)
    (p : Fin SIZE_PROVIDER) :
    ((get_tile_texture st on_disk loaded provider zoom x y).2.TILE_CACHE p).Pairwise
      fun a b => cache_matches a.z a.x a.y b = false := by
  unfold get_tile_texture
  cases hfind : (st.TILE_CACHE provider).find? (cache_matches zoom x y) with
  | some e => exact h p
  | none =>
    cases loaded with
    | none => exact h p
    | some texture =>
      by_cases hp : p = provider
      · subst hp
        simp only [Function.update_same]
        rw [List.pairwise_append]
        refine ⟨h p, List.pairwise_singleton _ _, ?_⟩
        intro a ha b hb
        rw [List.mem_singleton] at hb
        subst hb
        have hno : cache_matches zoom x y a = false := by
          have := List.find?_eq_none.1 hfind a ha
          simpa using this
        simp only [cache_matches, Bool.and_eq_false_imp, Bool.and_eq_true, beq_iff_eq,
          beq_eq_false_iff_ne, ne_eq] at hno ⊢
        rintro ⟨rfl, rfl⟩ rfl
        exact hno ⟨rfl, rfl⟩ rfl
      · simp only [Function.update_noteq hp]
        exact h p

/-- Every state reached from the initial one has pairwise distinct entries in
every partition. -/
theorem run_tiles_pairwise (steps : List TileStep) (st : TileState)
    (h : ∀ p, (st.TILE_CACHE p).Pairwise fun a b => cache_matches a.z a.x a.y b = false)
    (p : Fin SIZE_PROVIDER) :
    ((run_tiles st steps).TILE_CACHE p).Pairwise
      fun a b => cache_matches a.z a.x a.y b = false := by
  induction steps generalizing st with
  | nil => exact h p
  | cons step steps ih =>
    cases step with
    | lookup on_disk loaded provider zoom x y =>
      exact ih _ (get_tile_texture_pairwise st on_disk loaded provider zoom x y h)
    | worker_dequeue => exact ih _ h

/-- A pairwise distinct partition holds at most one entry per `(zoom, x, y)`. -/
theorem entries_le_one_of_pairwise (l : List TileCache) (zoom x y : Int)
    (h : l.Pairwise fun a b => cache_matches a.z a.x a.y b = false) :
    l.countP (cache_matches zoom x y) ≤ 1 := by
  induction l with
  | nil => simp
  | cons e rest ih =>
    obtain ⟨he, hrest⟩ := List.pairwise_cons.1 h
    by_cases hm : cache_matches zoom x y e = true
    · have hzero : rest.countP (cache_matches zoom x y) = 0 := by
        rw [List.countP_eq_zero]
        intro b hb hb2
        have heb := he b hb
        simp only [cache_matches, Bool.and_eq_true, beq_iff_eq, Bool.and_eq_false_imp,
          beq_eq_false_iff_ne, ne_eq] at hm hb2 heb
        obtain ⟨⟨h1, h2⟩, h3⟩ := hm
        obtain ⟨⟨h4, h5⟩, h6⟩ := hb2
        exact heb ⟨by rw [h4, h1], by rw [h5, h2]⟩ (by rw [h6, h3])
      rw [List.countP_cons, hzero, if_pos hm]
    · rw [List.countP_cons, if_neg hm]
      exact ih hrest

/-- C9: starting from `init_tile_cache`, after every finite sequence of
`get_tile_texture` calls (any providers and keys, any answers of the disk check
and of the decoder, interleaved with any number of worker dequeues) every
provider partition holds at most one entry for any `(zoom, x, y)`.  From such
a state, a lookup of a key whose file decodes followed by any number of
further lookups of that key leaves exactly one entry for it, and every lookup
after the first returns the handle that the first one returned and that the
partition stores. -/
theorem cache_single_entry (steps : List TileStep) (provider : Fin SIZE_PROVIDER)
    (zoom x y : Int) (on_disk : Bool) (texture : Texture)
    (further : List (Bool × Option Texture)) :
    entries_for (run_tiles init_tile_cache steps) provider zoom x y ≤ 1 ∧
    ∃ t : Texture,
      (get_tile_texture (run_tiles init_tile_cache steps) on_disk (some texture)
        provider zoom x y).1 = some t ∧
      ((get_tile_texture (run_tiles init_tile_cache steps) on_disk (some texture)
        provider zoom x y).2.TILE_CACHE provider).find? (cache_matches zoom x y) =
          some { z := zoom, x := x, y := y, texture := t } ∧
      (lookup_many
        (get_tile_texture (run_tiles init_tile_cache steps) on_disk (some texture)
          provider zoom x y).2 provider zoom x y further).1 =
          List.replicate further.length (some t) ∧
      entries_for
        (lookup_many
          (get_tile_texture (run_tiles init_tile_cache steps) on_disk (some texture)
            provider zoom x y).2 provider zoom x y further).2 provider zoom x y = 1 := by
  have hinit : ∀ p, (init_tile_cache.TILE_CACHE p).Pairwise
      fun a b => cache_matches a.z a.x a.y b = false := fun _ => List.Pairwise.nil
  have hst := run_tiles_pairwise steps init_tile_cache hinit
  refine ⟨entries_le_one_of_pairwise _ zoom x y (hst provider), ?_⟩
  obtain ⟨t, ht, hfind⟩ :=
    get_tile_texture_stores (run_tiles init_tile_cache steps) on_disk texture provider zoom x y
  refine ⟨t, ht, hfind, ?_, ?_⟩
  · rw [lookup_many_hit _ provider zoom x y _ hfind]
  · rw [lookup_many_hit _ provider zoom x y _ hfind]
    apply le_antisymm
    · exact entries_le_one_of_pairwise _ zoom x y
        (get_tile_texture_pairwise _ on_disk (some texture) provider zoom x y hst provider)
    · exact List.countP_pos_iff.2 ⟨_, List.mem_of_find?_eq_some hfind, List.find?_some hfind⟩

/-- A lookup of an uncached key with no file on disk, on an empty cache whose
queue is empty or already holds the job for this key: NULL is returned,
nothing is cached and the queue holds that one job. -/
theorem get_tile_texture_cold (provider : Fin SIZE_PROVIDER) (zoom x y : Int)
    (jobs : List TileJob)
    (hjobs : jobs = [] ∨ jobs =
      [{ provider := (provider.val : Int), z := zoom, x := x, y := y,
         path := (tile_path provider zoom x y).take 512 }]) :
    get_tile_texture { TILE_CACHE := fun _ => [], jobs := jobs } false none provider zoom x y =
      (none, { TILE_CACHE := fun _ => [], jobs :=
        [{ provider := (provider.val : Int), z := zoom, x := x, y := y,
           path := (tile_path provider zoom x y).take 512 }] }) := by
  rcases hjobs with h | h
  · subst h
    simp [get_tile_texture, enqueue_job]
  · subst h
    simp [get_tile_texture, enqueue_job, job_matches]

/-- Any number of such lookups, at least one, give NULL each time and the same
final state. -/
theorem lookup_many_cold (provider : Fin SIZE_PROVIDER) (zoom x y : Int) (n : Nat)
    (jobs : List TileJob)
    (hjobs : jobs = [] ∨ jobs =
      [{ provider := (provider.val : Int), z := zoom, x := x, y := y,
         path := (tile_path provider zoom x y).take 512 }]) :
    lookup_many { TILE_CACHE := fun _ => [], jobs := jobs } provider zoom x y
        (List.replicate (n + 1) (false, none)) =
      (List.replicate (n + 1) none, { TILE_CACHE := fun _ => [], jobs :=
        [{ provider := (provider.val : Int), z := zoom, x := x, y := y,
           path := (tile_path provider zoom x y).take 512 }] }) := by
  induction n generalizing jobs with
  | zero =>
    simp only [List.replicate, lookup_many, get_tile_texture_cold provider zoom x y jobs hjobs]
  | succ n ih =>
    rw [List.replicate_succ, lookup_many]
    simp only [get_tile_texture_cold provider zoom x y jobs hjobs]
    rw [ih _ (Or.inr rfl)]
    simp [List.replicate_succ]

/-- C10: with the cache and the queue as `init_tile_cache` leaves them and no
file on disk for the key (the disk check fails and decoding fails), `n + 1`
lookups of one key all return NULL, leave every cache partition empty and
leave exactly one pending job, the job for that key, which is what the worker
dequeues next.  Once the file exists and decodes, the next lookup (before or
after the worker took the job) returns the decoded handle and the provider's
partition holds exactly one entry, the entry for the key. -/
theorem cold_start_lookup (provider : Fin SIZE_PROVIDER) (zoom x y : Int) (n : Nat)
    (texture : Texture) (taken : Bool) :
    (lookup_many init_tile_cache provider zoom x y
        (List.replicate (n + 1) (false, none))).1 = List.replicate (n + 1) none ∧
    (∀ p, (lookup_many init_tile_cache provider zoom x y
        (List.replicate (n + 1) (false, none))).2.TILE_CACHE p = []) ∧
    (lookup_many init_tile_cache provider zoom x y
        (List.replicate (n + 1) (false, none))).2.jobs =
      [{ provider := (provider.val : Int), z := zoom, x := x, y := y,
         path := (tile_path provider zoom x y).take 512 }] ∧
    jobs_with_key
      (lookup_many init_tile_cache provider zoom x y
        (List.replicate (n + 1) (false, none))).2.jobs (provider.val : Int) zoom x y = 1 ∧
    dequeue_job
      (lookup_many init_tile_cache provider zoom x y
        (List.replicate (n + 1) (false, none))).2.jobs =
      (some { provider := (provider.val : Int), z := zoom, x := x, y := y,
              path := (tile_path provider zoom x y).take 512 }, []) ∧
    (get_tile_texture
      (run_tiles
        (lookup_many init_tile_cache provider zoom x y
          (List.replicate (n + 1) (false, none))).2
        (if taken then [TileStep.worker_dequeue] else []))
      true (some texture) provider zoom x y).1 = some texture ∧
    (get_tile_texture
      (run_tiles
        (lookup_many init_tile_cache provider zoom x y
          (List.replicate (n + 1) (false, none))).2
        (if taken then [TileStep.worker_dequeue] else []))
      true (some texture) provider zoom x y).2.TILE_CACHE provider =
      [{ z := zoom, x := x, y := y, texture := texture }] ∧
    entries_for
      (get_tile_texture
        (run_tiles
          (lookup_many init_tile_cache provider zoom x y
            (List.replicate (n + 1) (false, none))).2
          (if taken then [TileStep.worker_dequeue] else []))
        true (some texture) provider zoom x y).2 provider zoom x y = 1 := by
  have h := lookup_many_cold provider zoom x y n [] (Or.inl rfl)
  have hinit : init_tile_cache = { TILE_CACHE := fun _ => [], jobs := [] } := rfl
  rw [hinit, h]
  refine ⟨rfl, fun _ => rfl, rfl, ?_, rfl, ?_, ?_, ?_⟩
  · simp [jobs_with_key, job_matches]
  · cases taken <;> simp [run_tiles, TileStep.apply, get_tile_texture]
  · cases taken <;> simp [run_tiles, TileStep.apply, get_tile_texture]
  · cases taken <;>
      simp [run_tiles, TileStep.apply, get_tile_texture, entries_for, cache_matches]

/-! ## Properties of the draw step -/

/-- One wrap step lands in `[0, world_w)` when `center_px` is less than one
world width away from that interval. -/
theorem wrap_center_px_near (zoom : Int) (center_px : ℚ)
    (hlo : -world_w zoom ≤ center_px) (hhi : center_px < 2 * world_w zoom) :
    0 ≤ wrap_center_px zoom center_px ∧ wrap_center_px zoom center_px < world_w zoom := by
  have hW : 0 < world_w zoom := by
    unfold world_w shl_one TILE_SIZE
    positivity
  unfold wrap_center_px
  simp only
  split_ifs with h1 h2 h2
  · constructor <;> linarith
  · constructor <;> linarith
  · constructor <;> linarith
  · constructor <;> linarith

/-- C4 at a failing input: at zoom 1 the world is 512 pixels wide; from
`center_px = 100`, four LEFT key presses handled in one frame give
`center_px = -700`, and the wrap leaves `-188`, which is not in `[0, 512)`.
Likewise `1300` is left at `788`. -/
theorem wrap_center_px_single_step :
    world_w 1 = 512 ∧
    wrap_center_px 1 (100 - 200 - 200 - 200 - 200) = -188 ∧
    ¬ (0 ≤ wrap_center_px 1 (100 - 200 - 200 - 200 - 200)) ∧
    wrap_center_px 1 1300 = 788 ∧
    ¬ (wrap_center_px 1 1300 < world_w 1) := by
  norm_num [wrap_center_px, world_w, shl_one, TILE_SIZE]

/-- For a non-negative window dimension the truncating division is the floor
division. -/
theorem tiles_count_eq (win : Int) (h : 0 ≤ win) : tiles_count win = win / 256 + 3 := by
  unfold tiles_count TILE_SIZE
  rw [Int.tdiv_eq_ediv h (by decide)]

/-- The grid has `tiles_y` rows of `tiles_x` cells. -/
theorem draw_grid_length (win_w win_h : Int) (center_px center_py : ℚ) (zoom : Int) :
    (draw_grid win_w win_h center_px center_py zoom).length =
      (tiles_count win_h).toNat * (tiles_count win_w).toNat := by
  have hrow : ∀ (f : Nat → List GridCell) (c : Nat) (rows : List Nat),
      (∀ row, (f row).length = c) → (rows.flatMap f).length = rows.length * c := by
    intro f c rows hf
    induction rows with
    | nil => simp
    | cons r rest ih => simp [List.flatMap_cons, hf, ih, Nat.succ_mul, Nat.add_comm]
  unfold draw_grid
  simp only
  rw [hrow _ (tiles_count win_w).toNat _ (fun row => by simp), List.length_range]

/-- C5 as stated fails on the 1024 x 768 window: the loop bounds are 7 columns
and 6 rows (42 cells), not `ceil(1024/256) + 2 = 6` columns and
`ceil(768/256) + 2 = 5` rows. -/
theorem tiles_count_default_window :
    tiles_count 1024 = 7 ∧ ⌈(1024 : ℚ) / 256⌉ + 2 = 6 ∧
    tiles_count 768 = 6 ∧ ⌈(768 : ℚ) / 256⌉ + 2 = 5 ∧
    (draw_grid 1024 768 256 256 1).length = 42 := by
  refine ⟨by decide, by norm_num, by decide, by norm_num, by decide⟩

/-- The rational quotient by 256 of an integer, between its floor division and
the next integer. -/
theorem div_256_bounds (win : Int) :
    ((win / 256 : Int) : ℚ) ≤ (win : ℚ) / 256 ∧ (win : ℚ) / 256 < ((win / 256 : Int) : ℚ) + 1 := by
  have h1 : 256 * (win / 256) ≤ win := by omega
  have h2 : win < 256 * (win / 256) + 256 := by omega
  have h1q : (256 : ℚ) * ((win / 256 : Int) : ℚ) ≤ (win : ℚ) := by exact_mod_cast h1
  have h2q : (win : ℚ) < 256 * ((win / 256 : Int) : ℚ) + 256 := by exact_mod_cast h2
  constructor
  · rw [le_div_iff₀ (by norm_num)]; linarith
  · rw [div_lt_iff₀ (by norm_num)]; linarith

/-- The floor of the rational quotient by 256 is the integer floor division. -/
theorem floor_div_256 (win : Int) : ⌊(win : ℚ) / 256⌋ = win / 256 := by
  obtain ⟨h1, h2⟩ := div_256_bounds win
  rw [Int.floor_eq_iff]
  exact ⟨h1, h2⟩

/-- The ceiling of the rational quotient by 256: the floor division when 256
divides the dimension, one more otherwise. -/
theorem ceil_div_256 (win : Int) :
    ⌈(win : ℚ) / 256⌉ = if win % 256 = 0 then win / 256 else win / 256 + 1 := by
  have hdecomp : 256 * (win / 256) + win % 256 = win := Int.ediv_add_emod win 256
  have hq : (256 : ℚ) * ((win / 256 : Int) : ℚ) + ((win % 256 : Int) : ℚ) = (win : ℚ) := by
    exact_mod_cast hdecomp
  have hr0 : (0 : ℚ) ≤ ((win % 256 : Int) : ℚ) := by
    have : (0 : Int) ≤ win % 256 := by omega
    exact_mod_cast this
  have hr1 : ((win % 256 : Int) : ℚ) < 256 := by
    have : win % 256 < 256 := by omega
    exact_mod_cast this
  split_ifs with h
  · rw [Int.ceil_eq_iff]
    have hz : ((win % 256 : Int) : ℚ) = 0 := by exact_mod_cast h
    constructor
    · rw [lt_div_iff₀ (by norm_num)]; linarith
    · rw [div_le_iff₀ (by norm_num)]; linarith
  · rw [Int.ceil_eq_iff]
    have hpos : (0 : ℚ) < ((win % 256 : Int) : ℚ) := by
      have : (0 : Int) < win % 256 := by omega
      exact_mod_cast this
    constructor
    · rw [lt_div_iff₀ (by norm_num)]; push_cast; linarith
    · rw [div_le_iff₀ (by norm_num)]; push_cast; linarith

/-- C5 (amended): for every window width `w ≥ 0` and height `h ≥ 0` the draw
loop iterates a grid of exactly `floor(w / 256) + 3` columns by
`floor(h / 256) + 3` rows; per dimension that is `ceil + 2` when the dimension
is not a multiple of 256 and `ceil + 3` when it is. -/
theorem viewport_grid_size (win_w win_h : Int) (center_px center_py : ℚ) (zoom : Int)
    (hw : 0 ≤ win_w) (hh : 0 ≤ win_h) :
    tiles_count win_w = ⌊(win_w : ℚ) / 256⌋ + 3 ∧
    tiles_count win_h = ⌊(win_h : ℚ) / 256⌋ + 3 ∧
    (draw_grid win_w win_h center_px center_py zoom).length =
      (⌊(win_h : ℚ) / 256⌋ + 3).toNat * (⌊(win_w : ℚ) / 256⌋ + 3).toNat ∧
    tiles_count win_w =
      (if win_w % 256 = 0 then ⌈(win_w : ℚ) / 256⌉ + 3 else ⌈(win_w : ℚ) / 256⌉ + 2) ∧
    tiles_count win_h =
      (if win_h % 256 = 0 then ⌈(win_h : ℚ) / 256⌉ + 3 else ⌈(win_h : ℚ) / 256⌉ + 2) := by
  have hx := tiles_count_eq win_w hw
  have hy := tiles_count_eq win_h hh
  refine ⟨?_, ?_, ?_, ?_, ?_⟩
  · rw [hx, floor_div_256]
  · rw [hy, floor_div_256]
  · rw [draw_grid_length, hx, hy, floor_div_256, floor_div_256]
  · rw [hx, ceil_div_256]
    split_ifs <;> omega
  · rw [hy, ceil_div_256]
    split_ifs <;> omega

/-- C5 (amended) on the 1024 x 768 window. -/
theorem viewport_grid_size_witness :
    (0 : Int) ≤ 1024 ∧ (0 : Int) ≤ 768 ∧
    tiles_count 1024 = ⌊((1024 : Int) : ℚ) / 256⌋ + 3 ∧
    tiles_count 768 = ⌊((768 : Int) : ℚ) / 256⌋ + 3 ∧
    (draw_grid 1024 768 256 256 1).length =
      (⌊((768 : Int) : ℚ) / 256⌋ + 3).toNat * (⌊((1024 : Int) : ℚ) / 256⌋ + 3).toNat ∧
    tiles_count 1024 =
      (if (1024 : Int) % 256 = 0 then ⌈((1024 : Int) : ℚ) / 256⌉ + 3
        else ⌈((1024 : Int) : ℚ) / 256⌉ + 2) ∧
    tiles_count 768 =
      (if (768 : Int) % 256 = 0 then ⌈((768 : Int) : ℚ) / 256⌉ + 3
        else ⌈((768 : Int) : ℚ) / 256⌉ + 2) :=
  ⟨by decide, by decide, viewport_grid_size 1024 768 256 256 1 (by decide) (by decide)⟩

/-- A cell whose row lies inside the world is looked up with the wrapped
column and the row itself. -/
theorem cell_lookup_inside (zoom tx ty : Int) (h0 : 0 ≤ ty) (h1 : ty < shl_one zoom) :
    cell_lookup zoom tx ty = some (zoom, imod tx (shl_one zoom), ty) := by
  unfold cell_lookup
  simp only
  rw [if_neg]
  omega

/-- A cell whose row lies beyond a pole is skipped. -/
theorem cell_lookup_outside (zoom tx ty : Int) (h : ty < 0 ∨ ty ≥ shl_one zoom) :
    cell_lookup zoom tx ty = none := by
  unfold cell_lookup
  simp only
  rw [if_pos h]

/-- Along one axis the loop variables and the products `tx * TILE_SIZE` stay
inside the 32-bit range when the window dimension is at most `2^29` and the
window edge lies between `-2^30` and `2^30`. -/
theorem axis_in_int_range (edge : ℚ) (win : Int) (k : Nat)
    (hwin0 : 0 ≤ win) (hwin1 : win ≤ 2 ^ 29)
    (he0 : -(2 ^ 30 : ℚ) ≤ edge) (he1 : edge < (2 ^ 30 : ℚ))
    (hk : k < (tiles_count win).toNat) :
    (0 < tiles_count win ∧ tiles_count win < 2 ^ 31) ∧
    (-(2 ^ 31) ≤ first_tile edge ∧ first_tile edge < 2 ^ 31) ∧
    (-(2 ^ 31) ≤ first_tile edge + (k : Int) ∧ first_tile edge + (k : Int) < 2 ^ 31) ∧
    (-(2 ^ 31) ≤ (first_tile edge + (k : Int)) * TILE_SIZE ∧
      (first_tile edge + (k : Int)) * TILE_SIZE < 2 ^ 31) := by
  have hT := tiles_count_eq win hwin0
  have hf0 : -(2 ^ 22 : Int) ≤ first_tile edge := by
    unfold first_tile TILE_SIZE
    rw [Int.le_floor, le_div_iff₀ (by norm_num)]
    push_cast
    norm_num at he0 ⊢
    linarith
  have hf1 : first_tile edge < (2 ^ 22 : Int) := by
    unfold first_tile TILE_SIZE
    rw [Int.floor_lt, div_lt_iff₀ (by norm_num)]
    push_cast
    norm_num at he1 ⊢
    linarith
  have hq : win / 256 ≤ 2 ^ 21 := by omega
  have hq0 : 0 ≤ win / 256 := by omega
  have hkT : (k : Int) < tiles_count win := by omega
  unfold TILE_SIZE
  rw [hT] at hkT ⊢
  norm_num at hf0 hf1 hq hkT ⊢
  refine ⟨⟨?_, ?_⟩, ⟨?_, ?_⟩, ⟨?_, ?_⟩, ?_, ?_⟩ <;> omega

/-- The draw step stays inside 32-bit `int` arithmetic: for zoom in 1..22, a
wrapped `center_px`, `|center_py| ≤ 2^29` and a window of at most `2^29` pixels
each way, `n`, `tiles_x`, `tiles_y`, `first_tx`, `first_ty` and, for every cell,
`tx`, `ty`, `tx * TILE_SIZE` and `ty * TILE_SIZE` are 32-bit values, so the
integer model of the loop agrees with the machine arithmetic. -/
theorem draw_grid_in_int_range (zoom win_w win_h : Int) (center_px center_py : ℚ)
    (_hz1 : MIN_ZOOM ≤ zoom) (hz2 : zoom ≤ MAX_ZOOM)
    (hw0 : 0 ≤ win_w) (hw1 : win_w ≤ 2 ^ 29) (hh0 : 0 ≤ win_h) (hh1 : win_h ≤ 2 ^ 29)
    (hx0 : 0 ≤ center_px) (hx1 : center_px < world_w zoom)
    (hy0 : -(2 ^ 29 : ℚ) ≤ center_py) (hy1 : center_py ≤ (2 ^ 29 : ℚ)) :
    (0 < shl_one zoom ∧ shl_one zoom ≤ 2 ^ 22) ∧
    ∀ cell ∈ draw_grid win_w win_h center_px center_py zoom,
      (-(2 ^ 31) ≤ cell.tx * TILE_SIZE ∧ cell.tx * TILE_SIZE < 2 ^ 31) ∧
      (-(2 ^ 31) ≤ cell.ty * TILE_SIZE ∧ cell.ty * TILE_SIZE < 2 ^ 31) ∧
      (-(2 ^ 31) ≤ cell.tx ∧ cell.tx < 2 ^ 31) ∧
      (-(2 ^ 31) ≤ cell.ty ∧ cell.ty < 2 ^ 31) := by
  have hzn : zoom.toNat ≤ 22 := by
    unfold MAX_ZOOM at hz2
    omega
  have hn1 : shl_one zoom ≤ 2 ^ 22 := by
    unfold shl_one
    exact pow_le_pow_right₀ (by norm_num) hzn
  have hn0 : 0 < shl_one zoom := by
    unfold shl_one
    positivity
  have hW : world_w zoom ≤ (2 ^ 30 : ℚ) := by
    unfold world_w TILE_SIZE
    have : ((shl_one zoom : Int) : ℚ) ≤ ((2 ^ 22 : Int) : ℚ) := by exact_mod_cast hn1
    push_cast at this ⊢
    norm_num at this ⊢
    linarith
  have hwq0 : (0 : ℚ) ≤ (win_w : ℚ) := by exact_mod_cast hw0
  have hwq1 : (win_w : ℚ) ≤ (2 ^ 29 : ℚ) := by exact_mod_cast hw1
  have hhq0 : (0 : ℚ) ≤ (win_h : ℚ) := by exact_mod_cast hh0
  have hhq1 : (win_h : ℚ) ≤ (2 ^ 29 : ℚ) := by exact_mod_cast hh1
  refine ⟨⟨hn0, hn1⟩, ?_⟩
  intro cell hmem
  unfold draw_grid at hmem
  simp only [List.mem_flatMap, List.mem_map, List.mem_range] at hmem
  obtain ⟨row, hrow, col, hcol, rfl⟩ := hmem
  have hxr := axis_in_int_range (edge_px center_px win_w) win_w col hw0 hw1
    (by unfold edge_px; norm_num at hwq1 ⊢; linarith)
    (by unfold edge_px; norm_num at hW ⊢; linarith) hcol
  have hyr := axis_in_int_range (edge_px center_py win_h) win_h row hh0 hh1
    (by unfold edge_px; norm_num at hhq1 hy0 ⊢; linarith)
    (by unfold edge_px; norm_num at hy1 ⊢; linarith) hrow
  exact ⟨hxr.2.2.2, hyr.2.2.2, hxr.2.2.1, hyr.2.2.1⟩

/-- The lookups of the draw loop, computed from the integer loop variables
alone. -/
theorem draw_lookups_eq (win_w win_h : Int) (center_px center_py : ℚ) (zoom : Int) :
    draw_lookups win_w win_h center_px center_py zoom =
      (List.range (tiles_count win_h).toNat).flatMap fun (row : Nat) =>
        (List.range (tiles_count win_w).toNat).filterMap fun (col : Nat) =>
          cell_lookup zoom (first_tile (edge_px center_px win_w) + (col : Int))
            (first_tile (edge_px center_py win_h) + (row : Int)) := by
  unfold draw_lookups draw_grid
  simp only [List.filterMap_flatMap, List.filterMap_map]
  rfl

/-- C7: for every zoom in 1..22 and every grid cell `(tx, ty)` of the draw
loop, a cell with `ty < 0` or `ty ≥ 2^zoom` produces no lookup, and a cell with
`0 ≤ ty < 2^zoom` is looked up under the key `x = tx mod 2^zoom`, which lies in
`[0, 2^zoom)`, and `y = ty`; so every key passed to `get_tile_texture` has
`0 ≤ x < 2^zoom` and `0 ≤ y < 2^zoom`.  On the 1024 x 768 window at zoom 1
with center `(256, 256)` the lookups are the fourteen keys listed, all with
`x` and `y` in `{0, 1}`. -/
theorem enumerator_key_normalization (zoom win_w win_h : Int) (center_px center_py : ℚ)
    (_hz1 : MIN_ZOOM ≤ zoom) (_hz2 : zoom ≤ MAX_ZOOM) :
    (∀ cell ∈ draw_grid win_w win_h center_px center_py zoom,
      ((cell.ty < 0 ∨ cell.ty ≥ 2 ^ zoom.toNat) → cell.lookup = none) ∧
      ((0 ≤ cell.ty ∧ cell.ty < 2 ^ zoom.toNat) →
        cell.lookup = some (zoom, cell.tx % 2 ^ zoom.toNat, cell.ty) ∧
        0 ≤ cell.tx % 2 ^ zoom.toNat ∧ cell.tx % 2 ^ zoom.toNat < 2 ^ zoom.toNat)) ∧
    (∀ key ∈ draw_lookups win_w win_h center_px center_py zoom,
      key.1 = zoom ∧ (0 ≤ key.2.1 ∧ key.2.1 < 2 ^ zoom.toNat) ∧
      (0 ≤ key.2.2 ∧ key.2.2 < 2 ^ zoom.toNat) ∧
      ∃ cell ∈ draw_grid win_w win_h center_px center_py zoom,
        key.2.1 = cell.tx % 2 ^ zoom.toNat ∧ key.2.2 = cell.ty) ∧
    wrap_center_px 1 256 = 256 ∧
    draw_lookups 1024 768 (wrap_center_px 1 256) 256 1 =
      [(1, 1, 0), (1, 0, 0), (1, 1, 0), (1, 0, 0), (1, 1, 0), (1, 0, 0), (1, 1, 0),
       (1, 1, 1), (1, 0, 1), (1, 1, 1), (1, 0, 1), (1, 1, 1), (1, 0, 1), (1, 1, 1)] := by
  have hn : (0 : Int) < 2 ^ zoom.toNat := by positivity
  have hcell : ∀ cell ∈ draw_grid win_w win_h center_px center_py zoom,
      cell.lookup = cell_lookup zoom cell.tx cell.ty := by
    intro cell hmem
    unfold draw_grid at hmem
    simp only [List.mem_flatMap, List.mem_map, List.mem_range] at hmem
    obtain ⟨row, -, col, -, rfl⟩ := hmem
    rfl
  have hfirst : ∀ cell ∈ draw_grid win_w win_h center_px center_py zoom,
      ((cell.ty < 0 ∨ cell.ty ≥ 2 ^ zoom.toNat) → cell.lookup = none) ∧
      ((0 ≤ cell.ty ∧ cell.ty < 2 ^ zoom.toNat) →
        cell.lookup = some (zoom, cell.tx % 2 ^ zoom.toNat, cell.ty) ∧
        0 ≤ cell.tx % 2 ^ zoom.toNat ∧ cell.tx % 2 ^ zoom.toNat < 2 ^ zoom.toNat) := by
    intro cell hmem
    rw [hcell cell hmem]
    constructor
    · intro h
      exact cell_lookup_outside zoom _ _ h
    · rintro ⟨h0, h1⟩
      refine ⟨?_, Int.emod_nonneg _ (ne_of_gt hn), Int.emod_lt_of_pos _ hn⟩
      rw [cell_lookup_inside zoom _ _ h0 h1, shl_one, imod_eq_emod _ _ hn]
  refine ⟨hfirst, ?_, ?_, ?_⟩
  · intro key hkey
    unfold draw_lookups at hkey
    rw [List.mem_filterMap] at hkey
    obtain ⟨cell, hmem, hlook⟩ := hkey
    by_cases hty : cell.ty < 0 ∨ cell.ty ≥ 2 ^ zoom.toNat
    · rw [(hfirst cell hmem).1 hty] at hlook
      exact absurd hlook (by simp)
    · have hin : 0 ≤ cell.ty ∧ cell.ty < 2 ^ zoom.toNat := by omega
      obtain ⟨heq, hx0, hx1⟩ := (hfirst cell hmem).2 hin
      rw [heq] at hlook
      have hk := (Option.some.inj hlook).symm
      subst hk
      exact ⟨rfl, ⟨hx0, hx1⟩, hin, cell, hmem, rfl, rfl⟩
  · norm_num [wrap_center_px, world_w, shl_one, TILE_SIZE]
  · have hc : wrap_center_px 1 256 = 256 := by
      norm_num [wrap_center_px, world_w, shl_one, TILE_SIZE]
    have hx : first_tile (edge_px 256 1024) = -1 := by
      norm_num [first_tile, edge_px, TILE_SIZE]
    have hy : first_tile (edge_px 256 768) = -1 := by
      unfold first_tile edge_px TILE_SIZE
      rw [Int.floor_eq_iff]
      norm_num
    rw [hc, draw_lookups_eq, hx, hy]
    decide

/-- C7 at zoom 1 on the 1024 x 768 window with center `(256, 256)`. -/
theorem enumerator_key_normalization_witness :
    MIN_ZOOM ≤ 1 ∧ (1 : Int) ≤ MAX_ZOOM ∧
    ∀ key ∈ draw_lookups 1024 768 256 256 1,
      key.1 = 1 ∧ (0 ≤ key.2.1 ∧ key.2.1 < 2 ^ (1 : Int).toNat) ∧
      (0 ≤ key.2.2 ∧ key.2.2 < 2 ^ (1 : Int).toNat) ∧
      ∃ cell ∈ draw_grid 1024 768 256 256 1,
        key.2.1 = cell.tx % 2 ^ (1 : Int).toNat ∧ key.2.2 = cell.ty :=
  ⟨by decide, by decide,
    (enumerator_key_normalization 1 1024 768 256 256 (by decide) (by decide)).2.1⟩

/-! ## Properties of the Web Mercator helpers -/

/-- The constant `M_PI` is positive and below 3.15. -/
theorem M_PI_bounds : 0 < M_PI ∧ M_PI < 3.15 := by
  unfold M_PI
  constructor <;> norm_num

/-- For an angle strictly between `-π/2` and `π/2`, the hyperbolic sine
(written with exponentials) of half the logarithm of `(1 + sin) / (1 - sin)` is
the tangent of the angle. -/
theorem sinh_half_log (φ : ℝ) (h1 : -(Real.pi / 2) < φ) (h2 : φ < Real.pi / 2) :
    0.5 * (Real.exp (Real.log ((1 + Real.sin φ) / (1 - Real.sin φ)) / 2) -
      Real.exp (-(Real.log ((1 + Real.sin φ) / (1 - Real.sin φ)) / 2))) = Real.tan φ := by
  have hc : 0 < Real.cos φ := Real.cos_pos_of_mem_Ioo ⟨h1, h2⟩
  have hsq : Real.sin φ ^ 2 + Real.cos φ ^ 2 = 1 := Real.sin_sq_add_cos_sq φ
  set s := Real.sin φ with hs
  set c := Real.cos φ with hcdef
  have hs1 : s < 1 := by nlinarith
  have hs2 : -1 < s := by nlinarith
  have hm : 0 < 1 - s := by linarith
  have hp : 0 < 1 + s := by linarith
  have hr : 0 < (1 + s) / (1 - s) := div_pos hp hm
  set E := Real.exp (Real.log ((1 + s) / (1 - s)) / 2) with hE
  have hEpos : 0 < E := Real.exp_pos _
  have hE2 : E * E = (1 + s) / (1 - s) := by
    rw [hE, ← Real.exp_add]
    have : Real.log ((1 + s) / (1 - s)) / 2 + Real.log ((1 + s) / (1 - s)) / 2 =
        Real.log ((1 + s) / (1 - s)) := by ring
    rw [this, Real.exp_log hr]
  have hEinv : Real.exp (-(Real.log ((1 + s) / (1 - s)) / 2)) = E⁻¹ := by
    rw [Real.exp_neg]
  rw [hEinv, Real.tan_eq_sin_div_cos]
  have hX : (1 - s) * E = c := by
    have hXpos : 0 < (1 - s) * E := mul_pos hm hEpos
    have hsq2 : ((1 - s) * E) * ((1 - s) * E) = c * c := by
      have : ((1 - s) * E) * ((1 - s) * E) = (1 - s) * (1 - s) * (E * E) := by ring
      rw [this, hE2]
      field_simp
      nlinarith
    have hz : ((1 - s) * E - c) * ((1 - s) * E + c) = 0 := by ring_nf; ring_nf at hsq2; linarith
    rcases mul_eq_zero.1 hz with h | h
    · linarith
    · linarith
  have hEeq : E = c / (1 - s) := by
    field_simp
    linarith
  rw [hEeq]
  field_simp
  nlinarith

/-- C3: reading the arithmetic over the real numbers, for every zoom in 1..22,
every longitude `lon` and every latitude `lat` with `|lat| < 85.0511`,
`pixels_to_lonlat` applied to the pixel pair computed by `lonlat_to_pixels`
gives back `(lon, lat)` exactly, hence within `1e-6` degrees. -/
theorem projection_round_trip (lon lat : ℝ) (z : Int)
    (_hz1 : MIN_ZOOM ≤ z) (_hz2 : z ≤ MAX_ZOOM) (hlat : |lat| < 85.0511) :
    pixels_to_lonlat (lonlat_to_pixels lon lat z).1 (lonlat_to_pixels lon lat z).2 z =
      (lon, lat) ∧
    |(pixels_to_lonlat (lonlat_to_pixels lon lat z).1 (lonlat_to_pixels lon lat z).2 z).1 - lon|
      < 1e-6 ∧
    |(pixels_to_lonlat (lonlat_to_pixels lon lat z).1 (lonlat_to_pixels lon lat z).2 z).2 - lat|
      < 1e-6 := by
  have hmain : pixels_to_lonlat (lonlat_to_pixels lon lat z).1 (lonlat_to_pixels lon lat z).2 z =
      (lon, lat) := by
    obtain ⟨hM0, hM1⟩ := M_PI_bounds
    obtain ⟨hl1, hl2⟩ := abs_lt.1 hlat
    have hn : (0 : ℝ) < ((shl_one z : Int) : ℝ) := by
      unfold shl_one
      positivity
    have hT : ((TILE_SIZE : Int) : ℝ) = 256 := by
      unfold TILE_SIZE
      norm_num
    have hclamp : max (min lat 85.05112878) (-85.05112878) = lat := by
      rw [min_eq_left (by linarith), max_eq_left (by linarith)]
    have hpi := Real.pi_gt_d2
    have hφ1 : -(Real.pi / 2) < lat * M_PI / 180.0 := by
      have : -(85.0511 * 3.15) < lat * M_PI := by nlinarith
      norm_num at this ⊢
      linarith
    have hφ2 : lat * M_PI / 180.0 < Real.pi / 2 := by
      have : lat * M_PI < 85.0511 * 3.15 := by nlinarith
      norm_num at this ⊢
      linarith
    unfold pixels_to_lonlat lonlat_to_pixels
    simp only [hclamp, hT]
    refine Prod.ext ?_ ?_
    · simp only
      field_simp
      ring
    · simp only
      set L := Real.log
        ((1 + Real.sin (lat * M_PI / 180.0)) / (1 - Real.sin (lat * M_PI / 180.0))) with hL
      have ha : M_PI * (1 - 2 * ((0.5 - L / (4 * M_PI)) * ((shl_one z : Int) : ℝ) * 256 /
          (((shl_one z : Int) : ℝ) * 256))) = L / 2 := by
        field_simp
        ring
      rw [ha, sinh_half_log _ hφ1 hφ2, Real.arctan_tan hφ1 hφ2]
      field_simp
      ring
  rw [hmain]
  norm_num

/-- C3 at the start-up coordinates of the viewer (`INITIAL_LONGITUDE`,
`INITIAL_LATITUDE`) and zoom 1. -/
theorem projection_round_trip_witness :
    MIN_ZOOM ≤ 1 ∧ (1 : Int) ≤ MAX_ZOOM ∧ |(-31.33244 : ℝ)| < 85.0511 ∧
    pixels_to_lonlat (lonlat_to_pixels (-54.10793) (-31.33244) 1).1
      (lonlat_to_pixels (-54.10793) (-31.33244) 1).2 1 = (-54.10793, -31.33244) :=
  ⟨by decide, by decide, by rw [abs_lt]; constructor <;> norm_num,
    (projection_round_trip (-54.10793) (-31.33244) 1 (by decide) (by decide)
      (by rw [abs_lt]; constructor <;> norm_num)).1⟩

end MapViewer
